import Mathlib

/-!
Verification development for the two lint-suppression scanners of this
repository: `scan_eslint_ignore.py` (Dialect A, C-family comments) and
`scan_pylint_ignore.py` (Dialect B, hash comments).

The Python modules are shallowly embedded: each regular expression is
translated into an executable matching function over `List Char`
(implementing the backtracking semantics of the concrete pattern), the
`while`-loop state machines of `find_ignores` become structural
recursions over the line list carrying the `(ignores, ignore)` state,
and Python `None` values are `Option`.

Conventions:
* A "line" is one element of Python's `file.readlines()` list, i.e. it
  normally ends with a newline character (the last line may not).
* Python `str.strip()` is modelled over the six ASCII whitespace
  characters matched by the `re` class `\s` on ASCII text; the concrete
  inputs appearing in theorems below are pure ASCII.
-/

/-- The six ASCII whitespace characters: the ASCII fragment of both
Python's `str.strip()` default set and of the regex class `\s`. -/
def isPyWs (c : Char) : Bool :=
  c == ' ' || c == '\t' || c == '\n' || c == '\r' || c == '\x0b' || c == '\x0c'

/-- Python `str.strip()` on a character list: drop whitespace from both ends. -/
def stripChars (l : List Char) : List Char :=
  ((l.dropWhile isPyWs).reverse.dropWhile isPyWs).reverse

/-- Python `str.strip()`. -/
def pyStrip (s : String) : String := ⟨stripChars s.data⟩

/-- Python list indexing `lines[i]` with negative-index wraparound:
`lines[-1]` is the last element.  Out-of-range access raises IndexError
in Python; it is unreachable at every call site in the two modules, and
is modelled by the default `""`. -/
def pyGetElem (lines : List String) (i : Int) : String :=
  if i < 0 then lines.getD (lines.length - (-i).toNat) ""
  else lines.getD i.toNat ""

/-- Match a literal character at the head of the input. -/
def dropChar (c : Char) : List Char → Option (List Char)
  | [] => none
  | c' :: rest => if c' = c then some rest else none

/-- Match a literal character sequence at the head of the input. -/
def dropLit (lit : List Char) (s : List Char) : Option (List Char) :=
  if lit.isPrefixOf s then some (s.drop lit.length) else none

/-- Backtracking search for a pattern of the shape `.*X...`: regex `.`
does not match a newline, and the greedy `.*` makes the engine pick the
rightmost position at which the rest of the pattern succeeds.  `t` is
the parser for the part of the pattern after `.*`, applied to each
suffix; suffixes lying beyond a newline character are unreachable. -/
def lastMatchAux {α : Type} (t : List Char → Option α) : List Char → Option α
  | [] => none
  | c :: rest =>
    match (if c = '\n' then none else lastMatchAux t rest) with
    | some r => some r
    | none => t (c :: rest)

/-- The tail `\s*(.+)` of `TS_COMMENT_PATTERN = r".*//\s*(.+)"`, applied
to the text after a `//`.  The greedy `\s*`/backtracking semantics
collapse to: the pattern succeeds iff some character other than a
newline remains, and the captured group — which both call sites
immediately `.strip()` — strips to the text between the skipped
whitespace and the first newline.  The returned fragment is the already
stripped `group(1)`. -/
def tsCommentRest (rest : List Char) : Option String :=
  if rest.any (fun c => c ≠ '\n') then
    some (pyStrip ⟨(rest.dropWhile isPyWs).takeWhile (fun c => c ≠ '\n')⟩)
  else none

/-- Semantics of `TS_COMMENT_PATTERN.match(line)` followed by `.group(1).strip()`:
the stripped comment text after the last viable `//`, if the pattern
matches. -/
def tsCommentFragment (line : String) : Option String :=
  lastMatchAux
    (fun s =>
      match s with
      | '/' :: '/' :: r => tsCommentRest r
      | _ => none)
    line.data

/-- The tail `\s*(.+)$` of `PYTHON_COMMENT_PATTERN = r"#\s*(.+)$"` after
the literal `#`: try the greedy whitespace skip of `k` characters first
and backtrack downwards; `(.+)` then takes all characters up to the
first newline, and `$` requires that nothing, or exactly one final
newline, remains.  Returns the raw `group(1)`. -/
def pyCommentTryK (rest : List Char) (k : Nat) : Option (List Char) :=
  let seg := rest.drop k
  let body := seg.takeWhile (fun c => c ≠ '\n')
  let rem := seg.drop body.length
  if body ≠ [] ∧ (rem = [] ∨ rem = ['\n']) then some body else none

/-- Backtracking loop for `pyCommentTryK`: the greedy `\s*` tries the
longest whitespace skip first and retries downwards. -/
def pyCommentAfterHash (rest : List Char) : Nat → Option (List Char)
  | 0 => pyCommentTryK rest 0
  | k + 1 =>
    match pyCommentTryK rest (k + 1) with
    | some b => some b
    | none => pyCommentAfterHash rest k

/-- Semantics of `PYTHON_COMMENT_PATTERN.match(s)` (also the local `comment_pattern`
of `scan_eslint_ignore_file`): anchored at the start by `re.match`, so
the line must begin with `#`.  Returns the raw `group(1)`. -/
def pyCommentGroup (s : List Char) : Option (List Char) :=
  match s with
  | '#' :: rest => pyCommentAfterHash rest ((rest.takeWhile isPyWs).length)
  | _ => none

/-- Semantics of `PYTHON_COMMENT_PATTERN.match(line)` then `.group(1).strip()`. -/
def pyCommentFragment (line : String) : Option String :=
  (pyCommentGroup line.data).map (fun g => pyStrip ⟨g⟩)

/-- Characters of the regex class `[a-zA-Z-]` (the pylint rule name). -/
def isRuleChar (c : Char) : Bool :=
  ('a' ≤ c && c ≤ 'z') || ('A' ≤ c && c ≤ 'Z') || c == '-'

/-- Characters of the regex class `[a-zA-Z@\-,\s\/]` (the eslint rule
list). -/
def isEslintRuleListChar (c : Char) : Bool :=
  ('a' ≤ c && c ≤ 'z') || ('A' ≤ c && c ≤ 'Z') || c == '@' || c == '-' ||
    c == ',' || isPyWs c || c == '/'

/-- The tail `([a-zA-Z-]+)(?: (.+))?$` of `PYLINT_IGNORE_PATTERN`,
applied to the text after `disable(?:-next)?\s*=\s*`.  The greedy
`[a-zA-Z-]+` takes the maximal run (backtracking it can never help: the
optional group needs a space and `$` needs the end); the optional group
needs a literal space, then `(.+)` runs to the first newline, and `$`
accepts the end of the string or a single final newline. -/
def pylintAfterEq (t : List Char) : Option (String × Option String) :=
  let g1 := t.takeWhile isRuleChar
  if g1 = [] then none
  else
    let u := t.drop g1.length
    match u with
    | [] => some (⟨g1⟩, none)
    | ['\n'] => some (⟨g1⟩, none)
    | ' ' :: v =>
      let body := v.takeWhile (fun c => c ≠ '\n')
      let rem := v.drop body.length
      if body ≠ [] ∧ (rem = [] ∨ rem = ['\n']) then some (⟨g1⟩, some ⟨body⟩)
      else none
    | _ => none

/-- The part of `PYLINT_IGNORE_PATTERN` after the leading `.*`:
`#\s*pylint\s*:\s*disable(?:-next)?\s*=\s*([a-zA-Z-]+)(?: (.+))?$`.
The optional `-next` is forced whenever the literal is present (skipping
it cannot make the following `\s*=` match, since `-` is neither
whitespace nor `=`). -/
def pylintTry (s : List Char) : Option (String × Option String) :=
  match s with
  | '#' :: r0 =>
    (dropLit "pylint".data (r0.dropWhile isPyWs)).bind fun r2 =>
    (dropChar ':' (r2.dropWhile isPyWs)).bind fun r4 =>
    (dropLit "disable".data (r4.dropWhile isPyWs)).bind fun r6 =>
    let r7 := if "-next".data.isPrefixOf r6 then r6.drop 5 else r6
    (dropChar '=' (r7.dropWhile isPyWs)).bind fun r9 =>
    pylintAfterEq (r9.dropWhile isPyWs)
  | _ => none

/-- Semantics of `PYLINT_IGNORE_PATTERN.match(line)`, returning
`(group(1), group(2))` when the pattern matches. -/
def pylintMatch (line : String) : Option (String × Option String) :=
  lastMatchAux pylintTry line.data

/-- Semantics of `ESLINT_IGNORE_ENTIRE_FILE_PATTERN.match(line)`:
`^/\*\s*eslint-disable\s*([a-zA-Z@\-,\s\/]*)\s*\*/$`, anchored at both
ends.  Because `*` is not in the rule-list class, the group run always
ends at the first `*`, which must start a final `*/` (a single trailing
newline is tolerated by `$`).  Returns the raw `group(1)`. -/
def eslintFileMatch (line : String) : Option String :=
  match dropLit "/*".data line.data with
  | none => none
  | some t0 =>
    match dropLit "eslint-disable".data (t0.dropWhile isPyWs) with
    | none => none
    | some t2 =>
      let t3 := t2.dropWhile isPyWs
      let g := t3.takeWhile isEslintRuleListChar
      let t4 := t3.drop g.length
      if t4 = "*/".data ∨ t4 = "*/\n".data then some ⟨g⟩ else none

/-- The part of `ESLINT_INLINE_IGNORE_PATTERN` after the leading `.*`:
`//\s*eslint-disable(?:-next)?-line\s*([a-zA-Z@\-,\s\/]*)\s*$`.  The
class contains every whitespace character, so after `-line` the pattern
matches exactly when every remaining character is in the class, and
`group(1)` is the remainder minus the whitespace taken by the greedy
`\s*`. -/
def eslintInlineTry (s : List Char) : Option String :=
  match s with
  | '/' :: '/' :: r0 =>
    (dropLit "eslint-disable".data (r0.dropWhile isPyWs)).bind fun r2 =>
    let r3 := if "-next".data.isPrefixOf r2 then r2.drop 5 else r2
    (dropLit "-line".data r3).bind fun t =>
    if t.all isEslintRuleListChar then some ⟨t.dropWhile isPyWs⟩ else none
  | _ => none

/-- Semantics of `ESLINT_INLINE_IGNORE_PATTERN.match(line)`: raw `group(1)` of
`.*//\s*eslint-disable(?:-next)?-line\s*([a-zA-Z@\-,\s\/]*)\s*$`. -/
def eslintInlineMatch (line : String) : Option String :=
  lastMatchAux eslintInlineTry line.data

/-- Semantics of `TS_INLINE_IGNORE.match(line)`:
`^//\s*\@ts-(?:ignore)?(?:expect-error)?` — both trailing groups are
optional and nothing follows them, so the pattern matches exactly when
the line starts with `//`, whitespace, `@ts-`.  The pattern has no
capturing group. -/
def tsInlineTest (line : String) : Bool :=
  match dropLit "//".data line.data with
  | none => false
  | some r => "@ts-".data.isPrefixOf (r.dropWhile isPyWs)

/-- The `IgnoreType` enum of `scan_eslint_ignore.py`. -/
inductive IgnoreType
  | ESLINT_IGNORE_ESLINTIGNORE
  | ESLINT_IGNORE_ENTIRE_FILE
  | ESLINT_IGNORE_SINGLE_LINE
  | TSLINT_IGNORE_SINGLE_LINE
deriving DecidableEq, Repr

/-- The `Ignore` dataclass of `scan_eslint_ignore.py`.  `rule` is
`Optional[str]` (`None` exactly when the matched pattern has no capture
group and `rematch.group(1)` raises IndexError, i.e. for
`TS_INLINE_IGNORE`).  The declared Python type of `reason` is
`List[str]`, but `get_reason_for_ignore_file` can fall off its function
body and return `None`, so the field is modelled as
`Option (List String)` with `none` standing for Python `None`.  `type`
is declared `Optional[IgnoreType]` but every record built by the module
carries an actual `IgnoreType` (each of the three directive patterns
contains one of the search strings of `SEARCH_IGNORE_TYPE_TUPLES`), so
the field is modelled as `IgnoreType`. -/
structure IgnoreE where
  filepath : String
  start : Nat
  stop : Nat
  rule : Option String
  reason : Option (List String)
  type : IgnoreType
deriving DecidableEq, Repr

/-- The `Ignore` dataclass of `scan_pylint_ignore.py`. -/
structure IgnoreP where
  filepath : String
  start : Nat
  stop : Nat
  issue : String
  reason : List String
deriving DecidableEq, Repr

/-- Model of `get_reason` in `scan_eslint_ignore.py` (lines 128–135):
`previous_line = lines[line_number - 2]` — for `line_number = 1` the
index is `-1`, which Python resolves to the **last** line of the file —
then one fragment if `TS_COMMENT_PATTERN` matches it. -/
def get_reasonE (line_number : Nat) (lines : List String) : List String :=
  let previous_line := pyGetElem lines ((line_number : Int) - 2)
  match tsCommentFragment previous_line with
  | some f => [f]
  | none => []

/-- Model of `get_reason` in `scan_pylint_ignore.py` (lines 79–89): the
preceding-line fragment (same negative-index behaviour as Dialect A),
then the same-line `group(2)` reason when present and non-empty
(Python truthiness: `if reason :=  rematch.group(2)`). -/
def get_reasonP (g2 : Option String) (line_number : Nat) (lines : List String) :
    List String :=
  let previous_line := pyGetElem lines ((line_number : Int) - 2)
  let reasons :=
    match pyCommentFragment previous_line with
    | some f => [f]
    | none => []
  match g2 with
  | some r => if r = "" then reasons else reasons ++ [pyStrip r]
  | none => reasons

/-- The directive recognition of `find_ignores` in
`scan_eslint_ignore.py`: the three patterns are tried in order
(`ESLINT_IGNORE_ENTIRE_FILE_PATTERN or ESLINT_INLINE_IGNORE_PATTERN or
TS_INLINE_IGNORE`), the rule is `rematch.group(1).strip()` — left as
Python `None` for `TS_INLINE_IGNORE`, whose `group(1)` raises
IndexError — and the `IgnoreType` is the one `get_ignore_type` resolves
for the matched pattern through `SEARCH_IGNORE_TYPE_TUPLES` (the first
tuple whose search string occurs in the pattern's source text). -/
def eslintDirective (line : String) : Option (Option String × IgnoreType) :=
  match eslintFileMatch line with
  | some g => some (some (pyStrip g), .ESLINT_IGNORE_ENTIRE_FILE)
  | none =>
    match eslintInlineMatch line with
    | some g => some (some (pyStrip g), .ESLINT_IGNORE_SINGLE_LINE)
    | none =>
      if tsInlineTest line then some (none, .TSLINT_IGNORE_SINGLE_LINE)
      else none

/-- One iteration of the `while` loop of `find_ignores` in
`scan_eslint_ignore.py` (lines 152–183), acting on the
`(ignores, ignore)` state for the stripped current line. -/
def stepE (fp : String) (lines : List String)
    (st : List IgnoreE × Option IgnoreE) (nl : Nat × String) :
    List IgnoreE × Option IgnoreE :=
  match eslintDirective (pyStrip nl.2) with
  | some (rule, ty) =>
    (st.1 ++ st.2.toList,
     some ⟨fp, nl.1, nl.1, rule, some (get_reasonE nl.1 lines), ty⟩)
  | none =>
    match st.2 with
    | some ig => (st.1 ++ [ig], none)
    | none => (st.1, none)

/-- The `while` loop of `find_ignores` (`scan_eslint_ignore.py`): walk
the numbered lines; on `StopIteration` append the still-open record. -/
def scanEAux (fp : String) (lines : List String) :
    Nat → List String → List IgnoreE × Option IgnoreE → List IgnoreE
  | _, [], st => st.1 ++ st.2.toList
  | n, l :: rest, st => scanEAux fp lines (n + 1) rest (stepE fp lines st (n, l))

/-- Model of `find_ignores` in `scan_eslint_ignore.py`. -/
def find_ignoresE (fp : String) (lines : List String) : List IgnoreE :=
  scanEAux fp lines 1 lines ([], none)

/-- The `(ignores, ignore)` state of `find_ignores`
(`scan_eslint_ignore.py`) after every line has been consumed but before
the `StopIteration` handler runs. -/
def runStateE (fp : String) (lines : List String) :
    List IgnoreE × Option IgnoreE :=
  (lines.enumFrom 1).foldl (stepE fp lines) ([], none)

/-- One iteration of the `while` loop of `find_ignores` in
`scan_pylint_ignore.py` (lines 100–125): a directive opens a record
(closing any open one), a plain comment line while a record is open
extends its span and justification, any other line closes the open
record. -/
def stepP (fp : String) (lines : List String)
    (st : List IgnoreP × Option IgnoreP) (nl : Nat × String) :
    List IgnoreP × Option IgnoreP :=
  let line := pyStrip nl.2
  match pylintMatch line with
  | some (g1, g2) =>
    (st.1 ++ st.2.toList,
     some ⟨fp, nl.1, nl.1, g1, get_reasonP g2 nl.1 lines⟩)
  | none =>
    match pyCommentFragment line, st.2 with
    | some f, some ig =>
      (st.1, some { ig with stop := nl.1, reason := ig.reason ++ [f] })
    | _, _ =>
      match st.2 with
      | some ig => (st.1 ++ [ig], none)
      | none => (st.1, none)

/-- The `while` loop of `find_ignores` (`scan_pylint_ignore.py`). -/
def scanPAux (fp : String) (lines : List String) :
    Nat → List String → List IgnoreP × Option IgnoreP → List IgnoreP
  | _, [], st => st.1 ++ st.2.toList
  | n, l :: rest, st => scanPAux fp lines (n + 1) rest (stepP fp lines st (n, l))

/-- Model of `find_ignores` in `scan_pylint_ignore.py`. -/
def find_ignoresP (fp : String) (lines : List String) : List IgnoreP :=
  scanPAux fp lines 1 lines ([], none)

/-- The `(ignores, ignore)` state of `find_ignores`
(`scan_pylint_ignore.py`) after every line but before `StopIteration`. -/
def runStateP (fp : String) (lines : List String) :
    List IgnoreP × Option IgnoreP :=
  (lines.enumFrom 1).foldl (stepP fp lines) ([], none)

/-- Model of `get_reason_for_ignore_file` in `scan_eslint_ignore.py`
(lines 242–248), with the 0-based `line_number` of the enclosing
enumeration.  For `line_number < 1` it returns `[]`; otherwise, if the
previous (already stripped) line matches the local `comment_pattern`
(`#\s*(.+)$`) it returns the one-fragment list; otherwise control falls
off the end of the Python function, returning `None`. -/
def get_reason_for_ignore_file (line_number : Nat) (lines : List String) :
    Option (List String) :=
  if line_number < 1 then some []
  else
    match pyCommentFragment (lines.getD (line_number - 1) "") with
    | some f => some [f]
    | none => none

/-- The `for` loop of `scan_eslint_ignore_file` over the pre-stripped
lines, carrying the 0-based index: comment lines and empty lines are
skipped, every other line yields one `ignore from .eslintignore` record
whose `filepath` is the ignored-path text itself. -/
def scanIgnoreFileAux (lines : List String) :
    Nat → List String → List IgnoreE
  | _, [] => []
  | i, line :: rest =>
    (if (pyCommentGroup line.data).isSome ∨ line = "" then []
     else
       [⟨line, i + 1, i + 1, none, get_reason_for_ignore_file i lines,
         .ESLINT_IGNORE_ESLINTIGNORE⟩]) ++
    scanIgnoreFileAux lines (i + 1) rest

/-- Model of `scan_eslint_ignore_file` in `scan_eslint_ignore.py`, applied to the
raw lines of the `.eslintignore` file (the existence check of the path
is outside the embedding: these are the lines of an existing file). -/
def scan_eslint_ignore_file (lines0 : List String) : List IgnoreE :=
  scanIgnoreFileAux (lines0.map pyStrip) 0 (lines0.map pyStrip)

/-- The `Reason` entry of `Ignore.values` in `scan_eslint_ignore.py`:
`" ".join(self.reason) if self.reason else "(No reason provided)"`,
where both Python `None` and the empty list are falsy. -/
def renderReasonE : Option (List String) → String
  | none => "(No reason provided)"
  | some [] => "(No reason provided)"
  | some l => String.intercalate " " l

/-- The `Rule` entry of `Ignore.values` in `scan_eslint_ignore.py`:
`self.rule if self.rule else "NA"` — both `None` and the empty string
render as `"NA"`. -/
def renderRuleE : Option String → String
  | none => "NA"
  | some r => if r = "" then "NA" else r

/-- The `Reason` entry of `Ignore.values` in `scan_pylint_ignore.py`. -/
def renderReasonP (reason : List String) : String :=
  if reason = [] then "(No reason provided)" else String.intercalate " " reason

/-- Model of `catch_bad_ignores` in `scan_eslint_ignore.py` (lines 193–215):
filters the records whose rendered `Reason` is the literal
`"(No reason provided)"`; `none` models the plain return (no-op), and
`some bad` models "log each record of `bad`, then `sys.exit(1)`". -/
def catch_bad_ignoresE (ignores : List IgnoreE) : Option (List IgnoreE) :=
  let bad := ignores.filter fun ig => renderReasonE ig.reason == "(No reason provided)"
  if bad.isEmpty then none else some bad

/-- Model of `catch_bad_ignores` in `scan_pylint_ignore.py` (lines 135–157). -/
def catch_bad_ignoresP (ignores : List IgnoreP) : Option (List IgnoreP) :=
  let bad := ignores.filter fun ig => renderReasonP ig.reason == "(No reason provided)"
  if bad.isEmpty then none else some bad

/-- The tail of `main` in `scan_eslint_ignore.py` (lines 316–331) after
the aggregate `ignores` list has been built: returns
`(exit code, whether export ran)`.  An empty aggregate exits 0 before
any report; otherwise, under `--verify`, a failing gate exits 1 inside
`catch_bad_ignores`; in every remaining case `export(...)` runs (console
rendering or CSV file) and the process ends with exit code 0. -/
def mainReportPhaseE (verify : Bool) (ignores : List IgnoreE) : Nat × Bool :=
  if ignores.isEmpty then (0, false)
  else
    match (if verify then catch_bad_ignoresE ignores else none) with
    | some _ => (1, false)
    | none => (0, true)

/-- The tail of `main` in `scan_pylint_ignore.py` (lines 213–228). -/
def mainReportPhaseP (verify : Bool) (ignores : List IgnoreP) : Nat × Bool :=
  if ignores.isEmpty then (0, false)
  else
    match (if verify then catch_bad_ignoresP ignores else none) with
    | some _ => (1, false)
    | none => (0, true)

/-- Claim C1 (code bug): in verification mode, even when no record lacks
a justification the program still emits the report.  With one fully
justified suppression in each dialect, the report phase exits 0 but the
second component — "export ran" — is `true`: `main` calls
`export(export_dir, ignores)` after `catch_bad_ignores` returns, so the
console rendering / CSV write happens despite `--verify`. -/
theorem verify_mode_still_emits_report :
    mainReportPhaseE true
      (find_ignoresE "f"
        ["// ok because tested\n", "// eslint-disable-next-line foo\n"]) =
      (0, true) ∧
    mainReportPhaseP true
      (find_ignoresP "g"
        ["# needed for X\n", "y = 1  # pylint: disable=foo\n"]) =
      (0, true) := by
  constructor <;> rfl

/-- Claim C2 (code bug): a directive matching on line 1 does consult a
"preceding" line — `lines[line_number - 2]` is `lines[-1]`, which
Python's negative indexing resolves to the **last** line of the file.
In both dialects a trailing comment on the last line becomes the
justification of a line-1 directive. -/
theorem line_one_justification_wraps_to_last_line :
    find_ignoresE "f" ["// @ts-ignore\n", "x = 1\n", "// trailing comment\n"] =
      [⟨"f", 1, 1, none, some ["trailing comment"],
        .TSLINT_IGNORE_SINGLE_LINE⟩] ∧
    find_ignoresP "f" ["x # pylint: disable=foo\n", "y = 2\n", "# tail\n"] =
      [⟨"f", 1, 1, "foo", ["tail"]⟩] := by
  constructor <;> rfl

/-- Claim C6, counterexample: the claim fails in both dialects.  In
Dialect B the pattern requires `[a-zA-Z-]+`, so `# pylint: disable=`
is not recognized at all and yields no record; in Dialect A the bare
`/* eslint-disable */` yields `rule = some ""` (the stripped empty
capture), not `none`. -/
theorem empty_rule_list_counterexample :
    find_ignoresP "f" ["# pylint: disable=\n"] = [] ∧
    find_ignoresE "f" ["/* eslint-disable */\n"] =
      [⟨"f", 1, 1, some "", some [], .ESLINT_IGNORE_ENTIRE_FILE⟩] ∧
    (some "" : Option String) ≠ none := by
  refine ⟨rfl, rfl, by decide⟩

/-- Claim C6 as amended: in Dialect A a directive with an empty
rule-list argument produces a record whose `rule` is the **empty
string** — rendered `"NA"`, i.e. "suppress all rules" — while in
Dialect B a directive with an empty rule argument is not recognized as
a directive at all and produces no record. -/
theorem empty_rule_list_amended :
    ∀ fp : String,
      find_ignoresE fp ["/* eslint-disable */\n"] =
        [⟨fp, 1, 1, some "", some [], .ESLINT_IGNORE_ENTIRE_FILE⟩] ∧
      renderRuleE (some "") = "NA" ∧
      find_ignoresP fp ["# pylint: disable=\n"] = [] ∧
      pylintMatch "# pylint: disable=" = none := by
  intro fp
  refine ⟨rfl, rfl, rfl, rfl⟩

/-- Claim C5, counterexample: `catch_bad_ignores` compares the
**rendered** reason against the literal `"(No reason provided)"`, so a
record whose justification is the non-empty sequence
`["(No reason provided)"]` — produced by an actual scan where the
preceding comment line is literally `# (No reason provided)` — is
flagged and the gate signals failure, refuting the "only if some
record's justification is the empty sequence" direction. -/
theorem policy_gate_sentinel_collision :
    find_ignoresP "f"
        ["# (No reason provided)\n", "x = 1  # pylint: disable=foo\n"] =
      [⟨"f", 2, 2, "foo", ["(No reason provided)"]⟩] ∧
    (⟨"f", 2, 2, "foo", ["(No reason provided)"]⟩ : IgnoreP).reason ≠ [] ∧
    catch_bad_ignoresP [⟨"f", 2, 2, "foo", ["(No reason provided)"]⟩] =
      some [⟨"f", 2, 2, "foo", ["(No reason provided)"]⟩] := by
  refine ⟨rfl, by decide, rfl⟩

/-- Claim C3, counterexample: with a record open, a line that is a
comment (it matches `TS_COMMENT_PATTERN`) but no directive pattern
**does** close the open record: the `elif ignore is not None` branch of
`find_ignores` appends it and clears the buffer. -/
theorem eslint_comment_line_closes_counterexample :
    tsCommentFragment "// a comment\n" = some "a comment" ∧
    eslintDirective (pyStrip "// a comment\n") = none ∧
    stepE "f" ["// @ts-ignore\n", "// a comment\n"]
      ([], some ⟨"f", 1, 1, none, some ["a comment"],
        .TSLINT_IGNORE_SINGLE_LINE⟩)
      (2, "// a comment\n") =
      ([⟨"f", 1, 1, none, some ["a comment"], .TSLINT_IGNORE_SINGLE_LINE⟩],
       none) := by
  refine ⟨rfl, rfl, rfl⟩

/-- Claim C3 as amended: in Dialect A **any** line that matches no
directive pattern — comment or not — closes a non-`none` open record,
as does a new directive (which opens its own record) and the end of
input.  This is observationally equivalent to the claimed behaviour for
the emitted sequence, since Dialect A never mutates a record after
opening it. -/
theorem eslint_any_nondirective_line_closes :
    ∀ (fp : String) (lines : List String) (acc : List IgnoreE)
      (ig : IgnoreE) (n : Nat) (line : String),
      (eslintDirective (pyStrip line) = none →
        stepE fp lines (acc, some ig) (n, line) = (acc ++ [ig], none)) ∧
      (∀ d, eslintDirective (pyStrip line) = some d →
        stepE fp lines (acc, some ig) (n, line) =
          (acc ++ [ig], some ⟨fp, n, n, d.1, some (get_reasonE n lines), d.2⟩)) ∧
      scanEAux fp lines n [] (acc, some ig) = acc ++ [ig] := by
  intro fp lines acc ig n line
  refine ⟨?_, ?_, rfl⟩
  · intro h
    simp [stepE, h]
  · intro d h
    simp [stepE, h, Option.toList]

/-- Witness for `eslint_any_nondirective_line_closes` at a concrete
comment line with a concretely open record. -/
theorem eslint_nondirective_close_witness :
    stepE "f" ["// @ts-ignore\n", "// a comment\n"]
      ([], some ⟨"f", 1, 1, none, some ["a comment"],
        .TSLINT_IGNORE_SINGLE_LINE⟩)
      (2, "// a comment\n") =
      ([⟨"f", 1, 1, none, some ["a comment"], .TSLINT_IGNORE_SINGLE_LINE⟩],
       none) := by
  have h :=
    (eslint_any_nondirective_line_closes "f" ["// @ts-ignore\n", "// a comment\n"]
      [] ⟨"f", 1, 1, none, some ["a comment"], .TSLINT_IGNORE_SINGLE_LINE⟩
      2 "// a comment\n").1 rfl
  simpa using h

/-- Claim C5 as amended: the policy gate reports and signals failure iff
some record's **rendered** reason equals the literal
`"(No reason provided)"`.  This holds whenever a record's justification
is the empty sequence (for Dialect A also when the field is Python
`None`), but also when the joined fragments collide with the exact
sentinel text; apart from that collision the claimed equivalence is
exact. -/
theorem policy_gate_renders_sentinel_iff :
    ∀ (igsE : List IgnoreE) (igsP : List IgnoreP),
      (catch_bad_ignoresE igsE = none ↔
        ∀ ig ∈ igsE, renderReasonE ig.reason ≠ "(No reason provided)") ∧
      ((∃ ig ∈ igsE, ig.reason = none ∨ ig.reason = some []) →
        catch_bad_ignoresE igsE ≠ none) ∧
      (catch_bad_ignoresP igsP = none ↔
        ∀ ig ∈ igsP, renderReasonP ig.reason ≠ "(No reason provided)") ∧
      ((∃ ig ∈ igsP, ig.reason = []) → catch_bad_ignoresP igsP ≠ none) := by
  intro igsE igsP
  have hE : catch_bad_ignoresE igsE = none ↔
      ∀ ig ∈ igsE, renderReasonE ig.reason ≠ "(No reason provided)" := by
    simp only [catch_bad_ignoresE]
    constructor
    · intro h ig hig
      by_contra hcon
      have hmem : ig ∈ igsE.filter
          (fun ig => renderReasonE ig.reason == "(No reason provided)") :=
        List.mem_filter.mpr ⟨hig, by simp [hcon]⟩
      rcases hfil : igsE.filter
          (fun ig => renderReasonE ig.reason == "(No reason provided)") with
        _ | ⟨a, l⟩
      · rw [hfil] at hmem; simp at hmem
      · rw [hfil] at h; simp at h
    · intro h
      have : igsE.filter
          (fun ig => renderReasonE ig.reason == "(No reason provided)") = [] := by
        rw [List.filter_eq_nil_iff]
        intro a ha
        simp [h a ha]
      simp [this]
  have hP : catch_bad_ignoresP igsP = none ↔
      ∀ ig ∈ igsP, renderReasonP ig.reason ≠ "(No reason provided)" := by
    simp only [catch_bad_ignoresP]
    constructor
    · intro h ig hig
      by_contra hcon
      have hmem : ig ∈ igsP.filter
          (fun ig => renderReasonP ig.reason == "(No reason provided)") :=
        List.mem_filter.mpr ⟨hig, by simp [hcon]⟩
      rcases hfil : igsP.filter
          (fun ig => renderReasonP ig.reason == "(No reason provided)") with
        _ | ⟨a, l⟩
      · rw [hfil] at hmem; simp at hmem
      · rw [hfil] at h; simp at h
    · intro h
      have : igsP.filter
          (fun ig => renderReasonP ig.reason == "(No reason provided)") = [] := by
        rw [List.filter_eq_nil_iff]
        intro a ha
        simp [h a ha]
      simp [this]
  refine ⟨hE, ?_, hP, ?_⟩
  · rintro ⟨ig, hmem, hempty⟩ hnone
    have := (hE.mp hnone) ig hmem
    rcases hempty with h1 | h1 <;> simp [renderReasonE, h1] at this
  · rintro ⟨ig, hmem, hempty⟩ hnone
    have := (hP.mp hnone) ig hmem
    simp [renderReasonP, hempty] at this

/-- Witness for `policy_gate_renders_sentinel_iff`: a record with an
empty justification makes the gate of each dialect signal failure. -/
theorem policy_gate_sentinel_witness :
    catch_bad_ignoresE
        [⟨"f", 1, 1, none, some [], .ESLINT_IGNORE_ESLINTIGNORE⟩] ≠ none ∧
    catch_bad_ignoresP [⟨"g", 1, 1, "foo", []⟩] ≠ none := by
  have h := policy_gate_renders_sentinel_iff
    [⟨"f", 1, 1, none, some [], .ESLINT_IGNORE_ESLINTIGNORE⟩]
    [⟨"g", 1, 1, "foo", []⟩]
  exact ⟨h.2.1 ⟨_, List.mem_singleton.mpr rfl, Or.inr rfl⟩,
         h.2.2.2 ⟨_, List.mem_singleton.mpr rfl, rfl⟩⟩

/-- Every record emitted by the ignore-list loop starting at index `i`
comes from some index `j ≥ i`, with `lineStart = j + 1` and the reason
computed by `get_reason_for_ignore_file j`. -/
theorem mem_scanIgnoreFileAux (lines : List String) :
    ∀ (rest : List String) (i : Nat) (r : IgnoreE),
      r ∈ scanIgnoreFileAux lines i rest →
      ∃ j, i ≤ j ∧ r.start = j + 1 ∧
        r.reason = get_reason_for_ignore_file j lines := by
  intro rest
  induction rest with
  | nil => intro i r hr; simp [scanIgnoreFileAux] at hr
  | cons line rest ih =>
    intro i r hr
    simp only [scanIgnoreFileAux, List.mem_append] at hr
    rcases hr with hr | hr
    · split at hr
      · simp at hr
      · rw [List.mem_singleton] at hr
        exact ⟨i, le_refl i, by rw [hr], by rw [hr]⟩
    · obtain ⟨j, hij, hs, hres⟩ := ih (i + 1) r hr
      exact ⟨j, le_trans (Nat.le_succ i) hij, hs, hres⟩

/-- Claim C4, counterexample: an ignore-list record whose immediately
preceding line is not a comment carries Python `None` as its
justification — `get_reason_for_ignore_file` falls off the end of the
function — not the empty sequence.  (Only a first-line record, where
the `line_number < 1` guard fires, actually gets `[]`.) -/
theorem ignore_list_reason_counterexample :
    scan_eslint_ignore_file ["x", "p"] =
      [⟨"x", 1, 1, none, some [], .ESLINT_IGNORE_ESLINTIGNORE⟩,
       ⟨"p", 2, 2, none, none, .ESLINT_IGNORE_ESLINTIGNORE⟩] ∧
    pyCommentFragment "x" = none ∧
    (none : Option (List String)) ≠ some [] := by
  refine ⟨rfl, rfl, by decide⟩

/-- Claim C4 as amended: an ignore-list record whose immediately
preceding line is not a comment has justification `None` (Python's
null) — except a record on line 1, where the `line_number < 1` guard
returns the genuine empty list — and in both cases the justification
renders as `"(No reason provided)"`, the renderer's and gate's "no
reason" value. -/
theorem ignore_list_missing_comment_reason_is_none :
    ∀ (lines0 : List String) (r : IgnoreE),
      r ∈ scan_eslint_ignore_file lines0 →
      (r.start = 1 → r.reason = some []) ∧
      (2 ≤ r.start →
        pyCommentFragment ((lines0.map pyStrip).getD (r.start - 2) "") = none →
        r.reason = none) ∧
      (r.reason = none ∨ r.reason = some [] →
        renderReasonE r.reason = "(No reason provided)") := by
  intro lines0 r hr
  obtain ⟨j, _, hs, hres⟩ :=
    mem_scanIgnoreFileAux (lines0.map pyStrip) (lines0.map pyStrip) 0 r hr
  refine ⟨?_, ?_, ?_⟩
  · intro h1
    have hj : j = 0 := by omega
    rw [hres, hj, get_reason_for_ignore_file]
    simp
  · intro h2 hcom
    have hj : 1 ≤ j := by omega
    have hidx : j - 1 = r.start - 2 := by omega
    rw [hres, get_reason_for_ignore_file, if_neg (by omega)]
    rw [hidx, hcom]
  · rintro (h | h) <;> rw [h] <;> rfl

/-- Witness for `ignore_list_missing_comment_reason_is_none` at the
concrete ignore-list file `["x", "p"]`: the record for `"p"` sits on
line 2 behind the non-comment line `"x"` and renders as unjustified. -/
theorem ignore_list_reason_witness :
    (⟨"p", 2, 2, none, none, .ESLINT_IGNORE_ESLINTIGNORE⟩ : IgnoreE) ∈
      scan_eslint_ignore_file ["x", "p"] ∧
    renderReasonE
      (⟨"p", 2, 2, none, none,
        .ESLINT_IGNORE_ESLINTIGNORE⟩ : IgnoreE).reason =
      "(No reason provided)" := by
  have hmem : (⟨"p", 2, 2, none, none,
      .ESLINT_IGNORE_ESLINTIGNORE⟩ : IgnoreE) ∈
      scan_eslint_ignore_file ["x", "p"] := by decide
  exact ⟨hmem,
    (ignore_list_missing_comment_reason_is_none ["x", "p"] _ hmem).2.2
      (Or.inl rfl)⟩

/-- Processing a block of comment-only, non-directive lines while a
record is open extends that record's span by one line each and appends
the stripped fragments in order; at the end of input the record is
flushed after `acc`. -/
theorem scanPAux_comment_block (fp : String) (lines : List String) :
    ∀ (cs : List String) (n : Nat) (acc : List IgnoreP) (ig : IgnoreP),
      ig.stop + 1 = n →
      (∀ c ∈ cs, (pyCommentFragment (pyStrip c)).isSome = true ∧
        pylintMatch (pyStrip c) = none) →
      scanPAux fp lines n cs (acc, some ig) =
        acc ++ [{ ig with
          stop := ig.stop + cs.length,
          reason := ig.reason ++
            cs.filterMap (fun c => pyCommentFragment (pyStrip c)) }] := by
  intro cs
  induction cs with
  | nil =>
    intro n acc ig _ _
    simp [scanPAux]
  | cons c cs ih =>
    intro n acc ig hstop hcs
    have hc := hcs c (List.mem_cons_self c cs)
    obtain ⟨f, hf⟩ := Option.isSome_iff_exists.mp hc.1
    have hstep : stepP fp lines (acc, some ig) (n, c) =
        (acc, some { ig with stop := n, reason := ig.reason ++ [f] }) := by
      simp [stepP, hc.2, hf]
    rw [scanPAux, hstep]
    rw [ih (n + 1) acc { ig with stop := n, reason := ig.reason ++ [f] }
      rfl (fun c' hc' => hcs c' (List.mem_cons_of_mem c hc'))]
    subst hstop
    simp [List.filterMap_cons, hf, List.append_assoc, Nat.add_comm,
      Nat.add_left_comm, Nat.add_assoc]

/-- Claim C7: in Dialect B, a directive line followed by `N`
comment-only, non-directive lines yields exactly one record whose span
ends at `lineStart + N` and whose justification is the directive's own
fragments (from `get_reason`) followed by the continuation fragments in
file order. -/
theorem pylint_continuation_span_and_order :
    ∀ (fp d : String) (cs : List String) (g1 : String) (g2 : Option String),
      pylintMatch (pyStrip d) = some (g1, g2) →
      (∀ c ∈ cs, (pyCommentFragment (pyStrip c)).isSome = true ∧
        pylintMatch (pyStrip c) = none) →
      find_ignoresP fp (d :: cs) =
        [⟨fp, 1, 1 + cs.length, g1,
          get_reasonP g2 1 (d :: cs) ++
            cs.filterMap (fun c => pyCommentFragment (pyStrip c))⟩] := by
  intro fp d cs g1 g2 hd hcs
  have hstep : stepP fp (d :: cs) (([] : List IgnoreP), none) (1, d) =
      ([], some ⟨fp, 1, 1, g1, get_reasonP g2 1 (d :: cs)⟩) := by
    simp [stepP, hd]
  rw [find_ignoresP, scanPAux, hstep]
  rw [scanPAux_comment_block fp (d :: cs) cs 2 []
    ⟨fp, 1, 1, g1, get_reasonP g2 1 (d :: cs)⟩ rfl hcs]
  simp [Nat.add_comm]

/-- Witness for `pylint_continuation_span_and_order`: a concrete
directive with a same-line reason followed by two comment lines.  (The
`"second"` fragment appearing first in the justification comes from
`get_reason`'s negative-index lookup of the "preceding" line of line 1,
which resolves to the last line of the file.) -/
theorem pylint_continuation_witness :
    find_ignoresP "f" ["# pylint: disable=foo bc", "# first", "# second"] =
      [⟨"f", 1, 3, "foo", ["second", "bc", "first", "second"]⟩] := by
  have h := pylint_continuation_span_and_order "f" "# pylint: disable=foo bc"
    ["# first", "# second"] "foo" (some "bc") rfl (by decide)
  rw [h]
  decide

/-- The recursive Dialect A loop agrees with folding `stepE` over the
numbered lines and then flushing the final state. -/
theorem scanEAux_eq_foldl (fp : String) (lines : List String) :
    ∀ (rest : List String) (n : Nat) (st : List IgnoreE × Option IgnoreE),
      scanEAux fp lines n rest st =
        ((rest.enumFrom n).foldl (stepE fp lines) st).1 ++
          ((rest.enumFrom n).foldl (stepE fp lines) st).2.toList := by
  intro rest
  induction rest with
  | nil => intro n st; rfl
  | cons l rest ih =>
    intro n st
    rw [scanEAux, List.enumFrom, List.foldl_cons]
    exact ih (n + 1) (stepE fp lines st (n, l))

/-- The recursive Dialect B loop agrees with folding `stepP` over the
numbered lines and then flushing the final state. -/
theorem scanPAux_eq_foldl (fp : String) (lines : List String) :
    ∀ (rest : List String) (n : Nat) (st : List IgnoreP × Option IgnoreP),
      scanPAux fp lines n rest st =
        ((rest.enumFrom n).foldl (stepP fp lines) st).1 ++
          ((rest.enumFrom n).foldl (stepP fp lines) st).2.toList := by
  intro rest
  induction rest with
  | nil => intro n st; rfl
  | cons l rest ih =>
    intro n st
    rw [scanPAux, List.enumFrom, List.foldl_cons]
    exact ih (n + 1) (stepP fp lines st (n, l))

/-- Claim C8: for both dialects, the output of `find_ignores` is the
pre-EOF accumulated list followed by the still-open record, if any; the
open record is appended exactly once (its occurrence count rises by
exactly one) and nothing else changes at the end-of-file boundary. -/
theorem eof_open_record_flushed_exactly_once :
    ∀ (fp : String) (lines : List String),
      (find_ignoresE fp lines =
        (runStateE fp lines).1 ++ (runStateE fp lines).2.toList ∧
       ∀ ig : IgnoreE, (runStateE fp lines).2 = some ig →
         find_ignoresE fp lines = (runStateE fp lines).1 ++ [ig] ∧
         (find_ignoresE fp lines).count ig =
           (runStateE fp lines).1.count ig + 1) ∧
      (find_ignoresP fp lines =
        (runStateP fp lines).1 ++ (runStateP fp lines).2.toList ∧
       ∀ ig : IgnoreP, (runStateP fp lines).2 = some ig →
         find_ignoresP fp lines = (runStateP fp lines).1 ++ [ig] ∧
         (find_ignoresP fp lines).count ig =
           (runStateP fp lines).1.count ig + 1) := by
  intro fp lines
  have hE : find_ignoresE fp lines =
      (runStateE fp lines).1 ++ (runStateE fp lines).2.toList :=
    scanEAux_eq_foldl fp lines lines 1 ([], none)
  have hP : find_ignoresP fp lines =
      (runStateP fp lines).1 ++ (runStateP fp lines).2.toList :=
    scanPAux_eq_foldl fp lines lines 1 ([], none)
  refine ⟨⟨hE, ?_⟩, ⟨hP, ?_⟩⟩
  · intro ig hig
    have h1 : find_ignoresE fp lines = (runStateE fp lines).1 ++ [ig] := by
      rw [hE, hig]; rfl
    refine ⟨h1, ?_⟩
    rw [h1, List.count_append]
    simp [List.count_singleton]
  · intro ig hig
    have h1 : find_ignoresP fp lines = (runStateP fp lines).1 ++ [ig] := by
      rw [hP, hig]; rfl
    refine ⟨h1, ?_⟩
    rw [h1, List.count_append]
    simp [List.count_singleton]

/-- Witness for `eof_open_record_flushed_exactly_once`: files ending
with their directive line leave a record open at EOF; it is flushed as
the (single) final record. -/
theorem eof_flush_witness :
    find_ignoresE "f" ["// @ts-ignore\n"] =
      (runStateE "f" ["// @ts-ignore\n"]).1 ++
        [⟨"f", 1, 1, none, some ["@ts-ignore"], .TSLINT_IGNORE_SINGLE_LINE⟩] ∧
    find_ignoresP "g" ["x # pylint: disable=foo\n"] =
      (runStateP "g" ["x # pylint: disable=foo\n"]).1 ++
        [⟨"g", 1, 1, "foo", []⟩] := by
  have h := eof_open_record_flushed_exactly_once "f" ["// @ts-ignore\n"]
  have h' := eof_open_record_flushed_exactly_once "g" ["x # pylint: disable=foo\n"]
  exact ⟨(h.1.2 _ rfl).1, (h'.2.2 _ rfl).1⟩

/-- A result of the `.*`-backtracking search comes from the suffix
parser succeeding on some suffix. -/
theorem lastMatchAux_some {α : Type} (t : List Char → Option α) :
    ∀ (s : List Char) (r : α), lastMatchAux t s = some r →
      ∃ s', t s' = some r := by
  intro s
  induction s with
  | nil => intro r h; simp [lastMatchAux] at h
  | cons c rest ih =>
    intro r h
    rw [lastMatchAux] at h
    by_cases hc : c = '\n'
    · simp only [if_pos hc] at h
      exact ⟨c :: rest, h⟩
    · simp only [if_neg hc] at h
      rcases h' : lastMatchAux t rest with _ | r'
      · simp only [h'] at h
        exact ⟨c :: rest, h⟩
      · simp only [h'] at h
        obtain rfl := Option.some.inj h
        exact ih r' h'

/-- Characters kept by `takeWhile` satisfy the predicate. -/
theorem takeWhile_all_prop (p : Char → Bool) :
    ∀ l : List Char, (l.takeWhile p).all p = true := by
  intro l
  induction l with
  | nil => rfl
  | cons c rest ih =>
    rw [List.takeWhile_cons]
    by_cases h : p c <;> simp [h, ih]

/-- Any rule name produced by the tail of `PYLINT_IGNORE_PATTERN` is a
non-empty `[a-zA-Z-]` run. -/
theorem pylintAfterEq_issue (t : List Char) (g1 : String) (g2 : Option String) :
    pylintAfterEq t = some (g1, g2) →
    g1.data ≠ [] ∧ g1.data.all isRuleChar = true := by
  intro h
  simp only [pylintAfterEq] at h
  split at h
  · simp at h
  · rename_i hne
    have hall := takeWhile_all_prop isRuleChar t
    split at h
    · simp only [Option.some.injEq, Prod.mk.injEq] at h
      obtain ⟨rfl, rfl⟩ := h
      exact ⟨hne, hall⟩
    · simp only [Option.some.injEq, Prod.mk.injEq] at h
      obtain ⟨rfl, rfl⟩ := h
      exact ⟨hne, hall⟩
    · split at h
      · simp only [Option.some.injEq, Prod.mk.injEq] at h
        obtain ⟨rfl, rfl⟩ := h
        exact ⟨hne, hall⟩
      · simp at h
    · simp at h

/-- Any rule name produced by the suffix parser of
`PYLINT_IGNORE_PATTERN` is a non-empty `[a-zA-Z-]` run. -/
theorem pylintTry_issue (s : List Char) (g1 : String) (g2 : Option String) :
    pylintTry s = some (g1, g2) →
    g1.data ≠ [] ∧ g1.data.all isRuleChar = true := by
  intro h
  unfold pylintTry at h
  split at h
  · rcases Option.bind_eq_some.mp h with ⟨r2, _, h⟩
    rcases Option.bind_eq_some.mp h with ⟨r4, _, h⟩
    rcases Option.bind_eq_some.mp h with ⟨r6, _, h⟩
    rcases Option.bind_eq_some.mp h with ⟨r9, _, h⟩
    exact pylintAfterEq_issue _ _ _ h
  · simp at h

/-- Any rule name produced by `PYLINT_IGNORE_PATTERN.match` is a
non-empty `[a-zA-Z-]` run. -/
theorem pylintMatch_issue (line : String) (g1 : String) (g2 : Option String) :
    pylintMatch line = some (g1, g2) →
    g1.data ≠ [] ∧ g1.data.all isRuleChar = true := by
  intro h
  obtain ⟨s', hs'⟩ := lastMatchAux_some pylintTry line.data (g1, g2) h
  exact pylintTry_issue s' g1 g2 hs'

/-- One Dialect B step preserves "every buffered record's issue is a
non-empty `[a-zA-Z-]` run". -/
theorem stepP_issue_inv (fp : String) (lines : List String)
    (st : List IgnoreP × Option IgnoreP) (nl : Nat × String)
    (h1 : ∀ ig ∈ st.1, ig.issue.data ≠ [] ∧ ig.issue.data.all isRuleChar = true)
    (h2 : ∀ ig, st.2 = some ig →
      ig.issue.data ≠ [] ∧ ig.issue.data.all isRuleChar = true) :
    (∀ ig ∈ (stepP fp lines st nl).1,
      ig.issue.data ≠ [] ∧ ig.issue.data.all isRuleChar = true) ∧
    (∀ ig, (stepP fp lines st nl).2 = some ig →
      ig.issue.data ≠ [] ∧ ig.issue.data.all isRuleChar = true) := by
  have hacc : ∀ ig ∈ st.1 ++ st.2.toList,
      ig.issue.data ≠ [] ∧ ig.issue.data.all isRuleChar = true := by
    intro ig hig
    rcases List.mem_append.mp hig with h | h
    · exact h1 ig h
    · rcases hst : st.2 with _ | ig0
      · rw [hst] at h; simp at h
      · rw [hst] at h
        simp only [Option.toList_some, List.mem_singleton] at h
        exact h ▸ h2 ig0 hst
  rcases hm : pylintMatch (pyStrip nl.2) with _ | ⟨g1, g2⟩
  · rcases hcf : pyCommentFragment (pyStrip nl.2) with _ | f
    · rcases hst : st.2 with _ | ig0
      · have hstep : stepP fp lines st nl = (st.1, none) := by
          simp [stepP, hm, hcf, hst]
        rw [hstep]
        exact ⟨h1, by simp⟩
      · have hstep : stepP fp lines st nl = (st.1 ++ [ig0], none) := by
          simp [stepP, hm, hcf, hst]
        rw [hstep]
        refine ⟨?_, by simp⟩
        intro ig hig
        rcases List.mem_append.mp hig with hx | hx
        · exact h1 ig hx
        · rw [List.mem_singleton] at hx
          exact hx ▸ h2 ig0 hst
    · rcases hst : st.2 with _ | ig0
      · have hstep : stepP fp lines st nl = (st.1, none) := by
          simp [stepP, hm, hcf, hst]
        rw [hstep]
        exact ⟨h1, by simp⟩
      · have hstep : stepP fp lines st nl =
            (st.1, some { ig0 with stop := nl.1, reason := ig0.reason ++ [f] }) := by
          simp [stepP, hm, hcf, hst]
        rw [hstep]
        refine ⟨h1, ?_⟩
        intro ig hig
        obtain rfl := Option.some.inj hig
        exact h2 ig0 hst
  · have hstep : stepP fp lines st nl =
        (st.1 ++ st.2.toList,
         some ⟨fp, nl.1, nl.1, g1, get_reasonP g2 nl.1 lines⟩) := by
      simp [stepP, hm]
    rw [hstep]
    refine ⟨hacc, ?_⟩
    intro ig hig
    obtain rfl := Option.some.inj hig
    exact pylintMatch_issue (pyStrip nl.2) g1 g2 hm

/-- The Dialect B loop only emits records whose issue is a non-empty
`[a-zA-Z-]` run, given that the buffered state already satisfies it. -/
theorem scanPAux_issue_inv (fp : String) (lines : List String) :
    ∀ (rest : List String) (n : Nat) (st : List IgnoreP × Option IgnoreP),
      (∀ ig ∈ st.1, ig.issue.data ≠ [] ∧ ig.issue.data.all isRuleChar = true) →
      (∀ ig, st.2 = some ig →
        ig.issue.data ≠ [] ∧ ig.issue.data.all isRuleChar = true) →
      ∀ ig ∈ scanPAux fp lines n rest st,
        ig.issue.data ≠ [] ∧ ig.issue.data.all isRuleChar = true := by
  intro rest
  induction rest with
  | nil =>
    intro n st h1 h2 ig hig
    rw [scanPAux] at hig
    rcases List.mem_append.mp hig with h | h
    · exact h1 ig h
    · rcases hst : st.2 with _ | ig0
      · rw [hst] at h; simp at h
      · rw [hst] at h
        simp only [Option.toList_some, List.mem_singleton] at h
        exact h ▸ h2 ig0 hst
  | cons l rest ih =>
    intro n st h1 h2 ig hig
    rw [scanPAux] at hig
    have hinv := stepP_issue_inv fp lines st (n, l) h1 h2
    exact ih (n + 1) (stepP fp lines st (n, l)) hinv.1 hinv.2 ig hig

/-- Claim C9: every record the Dialect B scanner produces carries a
non-empty rule identifier consisting of letters and hyphens only; a
hash directive with an empty rule argument (e.g. `# pylint: disable=`)
is not recognized as a directive at all, so the "suppress all rules"
form never arises in this dialect. -/
theorem pylint_issue_nonempty_rule_chars :
    (∀ (fp : String) (lines : List String) (ig : IgnoreP),
      ig ∈ find_ignoresP fp lines →
      ig.issue ≠ "" ∧ ig.issue.data.all isRuleChar = true) ∧
    pylintMatch "# pylint: disable=" = none := by
  refine ⟨?_, rfl⟩
  intro fp lines ig hig
  have h := scanPAux_issue_inv fp lines lines 1 ([], none)
    (by simp) (by simp) ig hig
  refine ⟨?_, h.2⟩
  intro hempty
  apply h.1
  rw [hempty]

/-- Witness for `pylint_issue_nonempty_rule_chars` at a concrete scan
containing one record. -/
theorem pylint_issue_witness :
    (⟨"f", 1, 1, "foo", []⟩ : IgnoreP) ∈
      find_ignoresP "f" ["x # pylint: disable=foo\n"] ∧
    ("foo" : String) ≠ "" ∧ "foo".data.all isRuleChar = true := by
  have hmem : (⟨"f", 1, 1, "foo", []⟩ : IgnoreP) ∈
      find_ignoresP "f" ["x # pylint: disable=foo\n"] := by decide
  exact ⟨hmem, pylint_issue_nonempty_rule_chars.1 "f" _ _ hmem⟩

/-- The inclusive line spans `(lineStart, lineEnd)` of a Dialect A
record list. -/
def spansE (l : List IgnoreE) : List (Nat × Nat) :=
  l.map fun ig => (ig.start, ig.stop)

/-- The inclusive line spans `(lineStart, lineEnd)` of a Dialect B
record list. -/
def spansP (l : List IgnoreP) : List (Nat × Nat) :=
  l.map fun ig => (ig.start, ig.stop)

/-- A span list is chained above `lo`: every span starts at or after
`lo`, is well-formed (`start ≤ end`), and each following span starts
strictly after the previous one ends. -/
def Chained : Nat → List (Nat × Nat) → Prop
  | _, [] => True
  | lo, p :: rest => lo ≤ p.1 ∧ p.1 ≤ p.2 ∧ Chained (p.2 + 1) rest

/-- The lower bound available after a chained span list. -/
def nextLo (lo : Nat) : List (Nat × Nat) → Nat
  | [] => lo
  | p :: rest => nextLo (p.2 + 1) rest

theorem chained_append_singleton :
    ∀ (xs : List (Nat × Nat)) (lo s e : Nat),
      Chained lo xs → nextLo lo xs ≤ s → s ≤ e →
      Chained lo (xs ++ [(s, e)]) ∧ nextLo lo (xs ++ [(s, e)]) = e + 1 := by
  intro xs
  induction xs with
  | nil => intro lo s e _ h1 h2; exact ⟨⟨h1, h2, trivial⟩, rfl⟩
  | cons p rest ih =>
    intro lo s e hch h1 h2
    obtain ⟨ha, hb, hc⟩ := hch
    have hr := ih (p.2 + 1) s e hc h1 h2
    exact ⟨⟨ha, hb, hr.1⟩, hr.2⟩

theorem chained_pairwise :
    ∀ (xs : List (Nat × Nat)) (lo : Nat), Chained lo xs →
      xs.Pairwise (fun a b => a.2 < b.1) ∧
      ∀ p ∈ xs, lo ≤ p.1 ∧ p.1 ≤ p.2 := by
  intro xs
  induction xs with
  | nil => intro lo _; exact ⟨List.Pairwise.nil, by simp⟩
  | cons p rest ih =>
    intro lo hch
    obtain ⟨ha, hb, hc⟩ := hch
    obtain ⟨hpw, hall⟩ := ih (p.2 + 1) hc
    refine ⟨List.Pairwise.cons ?_ hpw, ?_⟩
    · intro q hq
      have := (hall q hq).1
      omega
    · intro q hq
      rcases List.mem_cons.mp hq with rfl | hq'
      · exact ⟨ha, hb⟩
      · have := hall q hq'
        constructor <;> omega

/-- The Dialect A loop keeps its output spans chained, given a chained
accumulator and a well-placed open record. -/
theorem scanEAux_chained (fp : String) (lines : List String) :
    ∀ (rest : List String) (n : Nat) (st : List IgnoreE × Option IgnoreE),
      Chained 1 (spansE st.1) →
      (st.2 = none → nextLo 1 (spansE st.1) ≤ n) →
      (∀ ig, st.2 = some ig →
        nextLo 1 (spansE st.1) ≤ ig.start ∧ ig.start ≤ ig.stop ∧ ig.stop < n) →
      Chained 1 (spansE (scanEAux fp lines n rest st)) := by
  intro rest
  induction rest with
  | nil =>
    intro n st hch hnone hsome
    rw [scanEAux]
    rcases hst : st.2 with _ | ig
    · simpa using hch
    · obtain ⟨h1, h2, _⟩ := hsome ig hst
      have := chained_append_singleton (spansE st.1) 1 ig.start ig.stop hch h1 h2
      simpa [spansE] using this.1
  | cons l rest ih =>
    intro n st hch hnone hsome
    rw [scanEAux]
    rcases hm : eslintDirective (pyStrip l) with _ | ⟨rule, ty⟩
    · rcases hst : st.2 with _ | ig
      · have hstep : stepE fp lines st (n, l) = (st.1, none) := by
          simp [stepE, hm, hst]
        rw [hstep]
        refine ih (n + 1) (st.1, none) hch (fun _ => ?_) (by simp)
        exact le_trans (hnone hst) (Nat.le_succ n)
      · have hstep : stepE fp lines st (n, l) = (st.1 ++ [ig], none) := by
          simp [stepE, hm, hst]
        rw [hstep]
        obtain ⟨h1, h2, h3⟩ := hsome ig hst
        have hap := chained_append_singleton (spansE st.1) 1 ig.start ig.stop
          hch h1 h2
        refine ih (n + 1) (st.1 ++ [ig], none) ?_ (fun _ => ?_) (by simp)
        · simpa [spansE] using hap.1
        · have hnl : nextLo 1 (spansE (st.1 ++ [ig])) = ig.stop + 1 := by
            simpa [spansE] using hap.2
          have hx : nextLo 1 (spansE (st.1 ++ [ig])) ≤ n + 1 := by omega
          exact hx
    · rcases hst : st.2 with _ | ig
      · have hstep : stepE fp lines st (n, l) =
            (st.1, some ⟨fp, n, n, rule, some (get_reasonE n lines), ty⟩) := by
          simp [stepE, hm, hst]
        rw [hstep]
        refine ih (n + 1) _ hch (by simp) ?_
        intro ig' hig'
        obtain rfl := Option.some.inj hig'
        exact ⟨hnone hst, le_refl n, Nat.lt_succ_self n⟩
      · have hstep : stepE fp lines st (n, l) =
            (st.1 ++ [ig], some ⟨fp, n, n, rule, some (get_reasonE n lines), ty⟩) := by
          simp [stepE, hm, hst]
        rw [hstep]
        obtain ⟨h1, h2, h3⟩ := hsome ig hst
        have hap := chained_append_singleton (spansE st.1) 1 ig.start ig.stop
          hch h1 h2
        refine ih (n + 1) _ ?_ (by simp) ?_
        · simpa [spansE] using hap.1
        · intro ig' hig'
          obtain rfl := Option.some.inj hig'
          have hnl : nextLo 1 (spansE (st.1 ++ [ig])) = ig.stop + 1 := by
            simpa [spansE] using hap.2
          have hx : nextLo 1 (spansE (st.1 ++ [ig])) ≤ n := by omega
          exact ⟨hx, le_refl n, Nat.lt_succ_self n⟩

/-- The Dialect B loop keeps its output spans chained, given a chained
accumulator and a well-placed open record. -/
theorem scanPAux_chained (fp : String) (lines : List String) :
    ∀ (rest : List String) (n : Nat) (st : List IgnoreP × Option IgnoreP),
      Chained 1 (spansP st.1) →
      (st.2 = none → nextLo 1 (spansP st.1) ≤ n) →
      (∀ ig, st.2 = some ig →
        nextLo 1 (spansP st.1) ≤ ig.start ∧ ig.start ≤ ig.stop ∧ ig.stop < n) →
      Chained 1 (spansP (scanPAux fp lines n rest st)) := by
  intro rest
  induction rest with
  | nil =>
    intro n st hch hnone hsome
    rw [scanPAux]
    rcases hst : st.2 with _ | ig
    · simpa using hch
    · obtain ⟨h1, h2, _⟩ := hsome ig hst
      have := chained_append_singleton (spansP st.1) 1 ig.start ig.stop hch h1 h2
      simpa [spansP] using this.1
  | cons l rest ih =>
    intro n st hch hnone hsome
    rw [scanPAux]
    rcases hm : pylintMatch (pyStrip l) with _ | ⟨g1, g2⟩
    · rcases hcf : pyCommentFragment (pyStrip l) with _ | f
      · rcases hst : st.2 with _ | ig
        · have hstep : stepP fp lines st (n, l) = (st.1, none) := by
            simp [stepP, hm, hcf, hst]
          rw [hstep]
          refine ih (n + 1) (st.1, none) hch (fun _ => ?_) (by simp)
          exact le_trans (hnone hst) (Nat.le_succ n)
        · have hstep : stepP fp lines st (n, l) = (st.1 ++ [ig], none) := by
            simp [stepP, hm, hcf, hst]
          rw [hstep]
          obtain ⟨h1, h2, h3⟩ := hsome ig hst
          have hap := chained_append_singleton (spansP st.1) 1 ig.start ig.stop
            hch h1 h2
          refine ih (n + 1) (st.1 ++ [ig], none) ?_ (fun _ => ?_) (by simp)
          · simpa [spansP] using hap.1
          · have hnl : nextLo 1 (spansP (st.1 ++ [ig])) = ig.stop + 1 := by
              simpa [spansP] using hap.2
            have hx : nextLo 1 (spansP (st.1 ++ [ig])) ≤ n + 1 := by omega
            exact hx
      · rcases hst : st.2 with _ | ig
        · have hstep : stepP fp lines st (n, l) = (st.1, none) := by
            simp [stepP, hm, hcf, hst]
          rw [hstep]
          refine ih (n + 1) (st.1, none) hch (fun _ => ?_) (by simp)
          exact le_trans (hnone hst) (Nat.le_succ n)
        · have hstep : stepP fp lines st (n, l) =
              (st.1, some { ig with stop := n, reason := ig.reason ++ [f] }) := by
            simp [stepP, hm, hcf, hst]
          rw [hstep]
          obtain ⟨h1, h2, h3⟩ := hsome ig hst
          refine ih (n + 1) _ hch (by simp) ?_
          intro ig' hig'
          obtain rfl := Option.some.inj hig'
          have hx : ig.start ≤ n := by omega
          exact ⟨h1, hx, Nat.lt_succ_self n⟩
    · rcases hst : st.2 with _ | ig
      · have hstep : stepP fp lines st (n, l) =
            (st.1, some ⟨fp, n, n, g1, get_reasonP g2 n lines⟩) := by
          simp [stepP, hm, hst]
        rw [hstep]
        refine ih (n + 1) _ hch (by simp) ?_
        intro ig' hig'
        obtain rfl := Option.some.inj hig'
        exact ⟨hnone hst, le_refl n, Nat.lt_succ_self n⟩
      · have hstep : stepP fp lines st (n, l) =
            (st.1 ++ [ig], some ⟨fp, n, n, g1, get_reasonP g2 n lines⟩) := by
          simp [stepP, hm, hst]
        rw [hstep]
        obtain ⟨h1, h2, h3⟩ := hsome ig hst
        have hap := chained_append_singleton (spansP st.1) 1 ig.start ig.stop
          hch h1 h2
        refine ih (n + 1) _ ?_ (by simp) ?_
        · simpa [spansP] using hap.1
        · intro ig' hig'
          obtain rfl := Option.some.inj hig'
          have hnl : nextLo 1 (spansP (st.1 ++ [ig])) = ig.stop + 1 := by
            simpa [spansP] using hap.2
          have hx : nextLo 1 (spansP (st.1 ++ [ig])) ≤ n := by omega
          exact ⟨hx, le_refl n, Nat.lt_succ_self n⟩

/-- Claim C10: for both dialect scanners the per-file output is ordered
by strictly increasing `lineStart`, every record's span is well-formed
(`lineStart ≤ lineEnd`), and the spans of distinct records are pairwise
disjoint: each span starts strictly after the previous one ends. -/
theorem scanner_spans_ordered_disjoint :
    ∀ (fp : String) (lines : List String),
      ((spansE (find_ignoresE fp lines)).Pairwise
          (fun a b => a.1 < b.1 ∧ a.2 < b.1) ∧
        ∀ p ∈ spansE (find_ignoresE fp lines), 1 ≤ p.1 ∧ p.1 ≤ p.2) ∧
      ((spansP (find_ignoresP fp lines)).Pairwise
          (fun a b => a.1 < b.1 ∧ a.2 < b.1) ∧
        ∀ p ∈ spansP (find_ignoresP fp lines), 1 ≤ p.1 ∧ p.1 ≤ p.2) := by
  intro fp lines
  have hE : Chained 1 (spansE (find_ignoresE fp lines)) :=
    scanEAux_chained fp lines lines 1 ([], none) trivial
      (fun _ => le_refl 1) (by simp)
  have hP : Chained 1 (spansP (find_ignoresP fp lines)) :=
    scanPAux_chained fp lines lines 1 ([], none) trivial
      (fun _ => le_refl 1) (by simp)
  obtain ⟨hpwE, hallE⟩ := chained_pairwise _ 1 hE
  obtain ⟨hpwP, hallP⟩ := chained_pairwise _ 1 hP
  refine ⟨⟨?_, hallE⟩, ⟨?_, hallP⟩⟩
  · refine hpwE.imp_of_mem ?_
    intro a b ha _ hab
    have := hallE a ha
    exact ⟨by omega, hab⟩
  · refine hpwP.imp_of_mem ?_
    intro a b ha _ hab
    have := hallP a ha
    exact ⟨by omega, hab⟩

/-- Witness for `scanner_spans_ordered_disjoint`: a concrete Dialect B
scan with a two-line span followed by a later single-line span. -/
theorem scanner_spans_witness :
    (1, 2) ∈ spansP (find_ignoresP "g"
      ["a # pylint: disable=foo\n", "# more\n", "b\n",
       "c # pylint: disable=bar\n"]) ∧
    1 ≤ (1, 2).1 ∧ (1, 2).1 ≤ (1, 2).2 := by
  have hmem : (1, 2) ∈ spansP (find_ignoresP "g"
      ["a # pylint: disable=foo\n", "# more\n", "b\n",
       "c # pylint: disable=bar\n"]) := by decide
  exact ⟨hmem, (scanner_spans_ordered_disjoint "g"
    ["a # pylint: disable=foo\n", "# more\n", "b\n",
     "c # pylint: disable=bar\n"]).2.2 (1, 2) hmem⟩
